import Mathlib

/-!
Verification development for the knowledge-expander Obsidian plugin.

The two algorithmic components are embedded shallowly:

* `KeywordExtractor` (src/keyword-extractor.ts): pure keyword extraction over
  JavaScript strings, modelled as `List Char` (Unicode scalar values).  The
  regular-expression scanners are translated to explicit character scanners
  with the leftmost-match, greedy-with-backtracking semantics of the
  JavaScript regex engine, traced pattern by pattern.  JavaScript objects used
  as string-keyed maps (`KeywordCount`) are modelled as insertion-ordered
  association lists, matching the enumeration order of `Object.entries` for
  non-index keys; `Array.prototype.sort` is modelled by a stable insertion
  sort, matching its guaranteed stability.
* `AIService` (src/ai-service.ts): the pure response-shaping part of each
  provider adapter (the code after the network reply is received), the
  credential checks (as request "plans" in `Except`, so that "fails before any
  network request" is expressible), cost computation over exact rationals, the
  code-fence stripper and the title/body splitter.
-/

namespace KnowledgeExpander

/-- Characters of a JavaScript string, as Unicode scalar values. -/
abbrev Str := List Char

/-- The character list of a Lean string literal. -/
def str (s : String) : Str := s.data

/-- JavaScript whitespace as used by `trim` and `\s`, restricted to the ASCII
whitespace characters (the inputs of interest contain no exotic spaces). -/
def isSp (c : Char) : Bool :=
  c = ' ' || c = '\t' || c = '\n' || c = '\r' || c = '\x0b' || c = '\x0c'

/-- `[0-9]` (code points 48–57). -/
def isDigitC (c : Char) : Bool := 48 ≤ c.toNat && c.toNat ≤ 57

/-- `[A-Z]` (code points 65–90). -/
def isUpperC (c : Char) : Bool := 65 ≤ c.toNat && c.toNat ≤ 90

/-- `[a-z]` (code points 97–122). -/
def isLowerC (c : Char) : Bool := 97 ≤ c.toNat && c.toNat ≤ 122

/-- `[A-Za-z]`. -/
def isAlphaC (c : Char) : Bool := isUpperC c || isLowerC c

/-- JavaScript regex word character `\w` = `[A-Za-z0-9_]` (used by `\b`). -/
def isWordC (c : Char) : Bool := isAlphaC c || isDigitC c || c = '_'

/-- Hangul syllable block `[가-힣]` (code points 0xAC00–0xD7A3). -/
def isHangulC (c : Char) : Bool := 0xAC00 ≤ c.toNat && c.toNat ≤ 0xD7A3

/-- `[가-힣A-Za-z]`, the character class of the company-name capture. -/
def isHL (c : Char) : Bool := isHangulC c || isAlphaC c

/-- `String.prototype.toLowerCase`, character-wise on the ASCII range. -/
def toLowerC (c : Char) : Char := if isUpperC c then Char.ofNat (c.toNat + 32) else c

/-- `toLowerCase` on a whole string. -/
def lowerStr (l : Str) : Str := l.map toLowerC

/-- Left trim. -/
def trimL (l : Str) : Str := l.dropWhile isSp

/-- Right trim. -/
def trimR (l : Str) : Str := (l.reverse.dropWhile isSp).reverse

/-- `String.prototype.trim`. -/
def jsTrim (l : Str) : Str := trimR (trimL l)

/-! ### Maximal runs

`/[가-힣]{2,}/g`, `/\b[A-Z][a-zA-Z]{2,}\b|\b[A-Z]{2,}\b/g` and `/\b[A-Z]{2,}\b/g`
match exactly the maximal runs of a character class satisfying a side
condition, so they are embedded through a maximal-run splitter. -/

/-- Splits a string into the maximal runs of characters satisfying `p`
(`cur` accumulates the current run in reverse). -/
def runsAux (p : Char → Bool) (cur : Str) : Str → List Str
  | [] => if cur = [] then [] else [cur.reverse]
  | c :: rest =>
    if p c then runsAux p (c :: cur) rest
    else if cur = [] then runsAux p [] rest
    else cur.reverse :: runsAux p [] rest

/-- The maximal runs of characters satisfying `p` in `l`, in order. -/
def runsOf (p : Char → Bool) (l : Str) : List Str := runsAux p [] l

/-- All matches of `/[가-힣]{2,}/g`: maximal Hangul runs of length ≥ 2. -/
def koMatches (l : Str) : List Str := (runsOf isHangulC l).filter (fun r => 2 ≤ r.length)

/-- Which maximal `\w`-runs are matched by `/\b[A-Z][a-zA-Z]{2,}\b|\b[A-Z]{2,}\b/`:
all-letter runs starting with an uppercase letter, of length ≥ 3 (first
alternative) or of length 2 with both letters uppercase (second alternative);
runs containing a digit or `_` defeat the trailing `\b` of both alternatives. -/
def enKeep (r : Str) : Bool :=
  r.all isAlphaC &&
    (match r with | [] => false | c :: _ => isUpperC c) &&
    (3 ≤ r.length || (r.length = 2 && (match r with | _ :: d :: _ => isUpperC d | _ => false)))

/-- All matches of `/\b[A-Z][a-zA-Z]{2,}\b|\b[A-Z]{2,}\b/g`. -/
def enMatches (l : Str) : List Str := (runsOf isWordC l).filter enKeep

/-- Which maximal `\w`-runs are matched by `/\b[A-Z]{2,}\b/`. -/
def acronymKeep (r : Str) : Bool := r.all isUpperC && 2 ≤ r.length

/-- All matches of `/\b[A-Z]{2,}\b/g`: maximal word runs of ≥ 2 uppercase letters. -/
def acronymMatches (l : Str) : List Str := (runsOf isWordC l).filter acronymKeep

/-! ### KeywordExtractor stop-word sets -/

/-- The constructor's Korean stop-word set. -/
def stopwordsKo : List Str :=
  (["이", "그", "저", "것", "수", "등", "및", "의", "가", "을", "를",
    "에", "에서", "으로", "로", "와", "과", "도", "만", "하다",
    "있다", "없다", "되다", "이다", "아니다", "하고", "한다"]).map str

/-- The constructor's English stop-word set. -/
def stopwordsEn : List Str :=
  (["the", "a", "an", "and", "or", "but", "in", "on", "at",
    "to", "for", "of", "with", "by", "from", "is", "was",
    "are", "were", "be", "been", "being", "have", "has", "had"]).map str

/-- `KeywordExtractor.extractGeneralKeywords`: Korean runs minus Korean stop
words, then English matches minus (case-insensitively) English stop words. -/
def extractGeneralKeywords (text : Str) : List Str :=
  (koMatches text).filter (fun w => !(stopwordsKo.contains w)) ++
    (enMatches text).filter (fun w => !(stopwordsEn.contains (lowerStr w)))

/-! ### The company-name pattern

`/(?:주식회사|㈜)?\s*([가-힣A-Za-z]+(?:\s+[가-힣A-Za-z]+)?)/g`, run through an
`exec` loop collecting capture group 1. -/

/-- The maximal `[가-힣A-Za-z]+` run at the head, with the remainder. -/
def hlRun (l : Str) : Str × Str := (l.takeWhile isHL, l.dropWhile isHL)

/-- The company pattern at the current position, after the optional marker has
been consumed: `\s*`, the first captured word, then greedily the optional
`\s+`-separated second word.  Returns the capture and the remaining input. -/
def companyAfterMarker (l : Str) : Option (Str × Str) :=
  let l1 := l.dropWhile isSp
  let w1 := l1.takeWhile isHL
  let r1 := l1.dropWhile isHL
  if w1 = [] then none
  else
    let sp := r1.takeWhile isSp
    if sp = [] then some (w1, r1)
    else
      let w2 := (r1.dropWhile isSp).takeWhile isHL
      let r2 := (r1.dropWhile isSp).dropWhile isHL
      if w2 = [] then some (w1, r1) else some (w1 ++ sp ++ w2, r2)

/-- The company pattern anchored at the current position: the optional marker
alternatives are tried greedily (`주식회사`, then `㈜`, then no marker), each
followed by `companyAfterMarker`; the first success wins. -/
def companyTryAt (l : Str) : Option (Str × Str) :=
  match (if (str "주식회사").isPrefixOf l then companyAfterMarker (l.drop 4) else none) with
  | some res => some res
  | none =>
    match (if (str "㈜").isPrefixOf l then companyAfterMarker (l.drop 1) else none) with
    | some res => some res
    | none => companyAfterMarker l

/-- A global `exec`/`match` loop: at each position try `tryAt`; on success emit
the match and resume right after it, on failure advance one character.  `fuel`
bounds the number of steps (every step consumes at least one character, so
`l.length` suffices). -/
def scanWith (tryAt : Str → Option (Str × Str)) : Nat → Str → List Str
  | 0, _ => []
  | fuel + 1, l =>
    (tryAt l).elim
      (match l with
       | [] => []
       | _ :: t => scanWith tryAt fuel t)
      (fun p => p.1 :: scanWith tryAt fuel p.2)

/-- The capture-1 strings collected by the company-pattern `exec` loop, each
trimmed and kept when its trimmed length is ≥ 2 (the in-loop push condition). -/
def companyCandidates (text : Str) : List Str :=
  ((scanWith companyTryAt text.length text).map jsTrim).filter (fun c => 2 ≤ c.length)

/-! ### The consecutive-capitalized-words pattern

`/\b[A-Z][a-z]+(?:\s+[A-Z][a-z]+)+\b/g`. -/

/-- `[A-Z][a-z]+` with the lowercase run taken greedily (length ≥ 2 overall). -/
def capWord (l : Str) : Option (Str × Str) :=
  match l with
  | c :: rest =>
    if isUpperC c then
      let low := rest.takeWhile isLowerC
      if low = [] then none else some (c :: low, rest.dropWhile isLowerC)
    else none
  | [] => none

/-- The greedy repetitions of `(?:\s+[A-Z][a-z]+)`: each entry is the matched
segment (separator and word) paired with the input remaining after it. -/
def capChain (fuel : Nat) (l : Str) : List (Str × Str) :=
  match fuel with
  | 0 => []
  | fuel + 1 =>
    let sp := l.takeWhile isSp
    if sp = [] then []
    else
      match capWord (l.dropWhile isSp) with
      | none => []
      | some (w, rest) => (sp ++ w, rest) :: capChain fuel rest

/-- The trailing `\b`: satisfied at end of input or before a non-word character. -/
def bdryOK (l : Str) : Bool :=
  match l with
  | [] => true
  | c :: _ => !(isWordC c)

/-- The scanner for `/\b[A-Z][a-z]+(?:\s+[A-Z][a-z]+)+\b/g`.  `prevW` records
whether the character before the current position is a word character (for the
leading `\b`).  At a viable start the greedy chain is taken; if the trailing
`\b` fails, the engine backtracks by dropping the last repetition (after which
the boundary holds, the new end being followed by the dropped separator);
dropping below one repetition fails the `+`, so the start is abandoned and the
scan advances one character. -/
def capScan : Nat → Bool → Str → List Str
  | 0, _, _ => []
  | fuel + 1, prevW, l =>
    match l with
    | [] => []
    | c :: t =>
      (if prevW then none else capWord (c :: t)).elim
        (capScan fuel (isWordC c) t)
        (fun q =>
          let segs := capChain q.2.length q.2
          if segs = [] then capScan fuel (isWordC c) t
          else if bdryOK (segs.getLastD ([], [])).2 then
            (q.1 ++ (segs.map Prod.fst).flatten) ::
              capScan fuel true (segs.getLastD ([], [])).2
          else if 2 ≤ segs.length then
            (q.1 ++ ((segs.dropLast).map Prod.fst).flatten) ::
              capScan fuel true ((segs.dropLast).getLastD ([], [])).2
          else capScan fuel (isWordC c) t)

/-- All matches of `/\b[A-Z][a-z]+(?:\s+[A-Z][a-z]+)+\b/g`. -/
def capitalizedMatches (text : Str) : List Str := capScan text.length false text

/-- `KeywordExtractor.extractProperNouns`: company captures, capitalized
sequences and acronyms, each trimmed, empty strings dropped. -/
def extractProperNouns (text : Str) : List Str :=
  ((companyCandidates text ++ capitalizedMatches text ++ acronymMatches text).map jsTrim).filter
    (fun pn => 0 < pn.length)

/-! ### The number patterns -/

/-- `조`, `억` or `만`. -/
def isMagnitude (c : Char) : Bool := c = '조' || c = '억' || c = '만'

/-- `/\d+(?:조|억|만)?원/` anchored at the current position: the maximal digit
run, an optional magnitude, then `원`.  Backtracking into a shorter digit run
cannot succeed (the next character would be a digit), so the maximal run is the
only candidate. -/
def moneyTryAt (l : Str) : Option (Str × Str) :=
  let ds := l.takeWhile isDigitC
  if ds = [] then none
  else
    match l.dropWhile isDigitC with
    | c :: rest =>
      if c = '원' then some (ds ++ [c], rest)
      else
        if isMagnitude c then
          match rest with
          | d :: rest2 => if d = '원' then some (ds ++ [c, d], rest2) else none
          | [] => none
        else none
    | [] => none

/-- The candidate splits of a greedy `\d{1,2}`, in backtracking order
(two digits first, then one). -/
def digits12 (l : Str) : List (Str × Str) :=
  match l with
  | a :: b :: rest =>
    if isDigitC a && isDigitC b then [([a, b], rest), ([a], b :: rest)]
    else if isDigitC a then [([a], b :: rest)] else []
  | [a] => if isDigitC a then [([a], [])] else []
  | [] => []

/-- `\d{1,2}일` at the current position (the part of the date pattern after `월`). -/
def dayTryAt (l : Str) : Option (Str × Str) :=
  (digits12 l).findSome? fun p =>
    match p.2 with
    | c :: rest => if c = '일' then some (p.1 ++ [c], rest) else none
    | [] => none

/-- `\d{1,2}월\d{1,2}일` at the current position, with the greedy backtracking
order of both `\d{1,2}`. -/
def monthDayTryAt (l : Str) : Option (Str × Str) :=
  (digits12 l).findSome? fun p =>
    match p.2 with
    | c :: rest =>
      if c = '월' then
        match dayTryAt rest with
        | some (md, rest2) => some (p.1 ++ [c] ++ md, rest2)
        | none => none
      else none
    | [] => none

/-- `/\d{4}년|\d{1,2}월\d{1,2}일/` at the current position: the first
alternative (exactly four digits then `년`), else the second. -/
def dateTryAt (l : Str) : Option (Str × Str) :=
  match l with
  | a :: b :: c :: d :: e :: rest =>
    if isDigitC a && isDigitC b && isDigitC c && isDigitC d && e = '년' then
      some ([a, b, c, d, e], rest)
    else monthDayTryAt l
  | _ => monthDayTryAt l

/-- The greedy repetitions of `(?:,\d{3})`, returning the matched characters
and the remainder. -/
def commaGroups (fuel : Nat) (l : Str) : Str × Str :=
  match fuel with
  | 0 => ([], l)
  | fuel + 1 =>
    match l with
    | c0 :: a :: b :: c :: rest =>
      if c0 = ',' && isDigitC a && isDigitC b && isDigitC c then
        let p := commaGroups fuel rest
        (c0 :: a :: b :: c :: p.1, p.2)
      else ([], l)
    | _ => ([], l)

/-- `명`, `건`, `회` or `개`. -/
def isCounter (c : Char) : Bool := c = '명' || c = '건' || c = '회' || c = '개'

/-- `/\d+(?:,\d{3})*(?:명|건|회|개)/` at the current position: the maximal digit
run, the greedy comma groups, then a counter unit.  Dropping trailing comma
groups or shortening the digit run leaves the scan on `,` or a digit, so no
backtracking alternative can succeed. -/
def largeNumTryAt (l : Str) : Option (Str × Str) :=
  let ds := l.takeWhile isDigitC
  if ds = [] then none
  else
    let p := commaGroups (l.dropWhile isDigitC).length (l.dropWhile isDigitC)
    match p.2 with
    | c :: rest => if isCounter c then some (ds ++ p.1 ++ [c], rest) else none
    | [] => none

/-- `KeywordExtractor.extractNumbers`: money amounts, then dates, then counted
quantities. -/
def extractNumbers (text : Str) : List Str :=
  scanWith moneyTryAt text.length text ++ scanWith dateTryAt text.length text ++
    scanWith largeNumTryAt text.length text

/-! ### Frequency counting and ranking -/

/-- One step of `freq[keyword] = (freq[keyword] || 0) + 1` on the
insertion-ordered association list modelling the `KeywordCount` object: an
existing key is bumped in place, a new key is appended. -/
def bump : List (Str × Nat) → Str → List (Str × Nat)
  | [], k => [(k, 1)]
  | (k', n) :: rest, k => if k' = k then (k', n + 1) :: rest else (k', n) :: bump rest k

/-- `KeywordExtractor.countFrequency`. -/
def countFrequency (keywords : List Str) : List (Str × Nat) := keywords.foldl bump []

/-- `Object.entries(freq).sort((a, b) => b[1] - a[1])`: a stable sort by
descending count (`Array.prototype.sort` is guaranteed stable). -/
def sortEntries (l : List (Str × Nat)) : List (Str × Nat) :=
  l.insertionSort (fun x y => y.2 ≤ x.2)

instance : IsTotal (Str × Nat) (fun x y => y.2 ≤ x.2) :=
  ⟨fun a b => (Nat.le_total b.2 a.2)⟩

instance : IsTrans (Str × Nat) (fun x y => y.2 ≤ x.2) :=
  ⟨fun _ _ _ hab hbc => le_trans hbc hab⟩

/-- `KeywordExtractor.getTopKeywords`. -/
def getTopKeywords (freq : List (Str × Nat)) (topN : Nat) : List Str :=
  ((sortEntries freq).map Prod.fst).take topN

/-- The weighted multiset of candidates built by `extractKeywords` before
counting: title keywords three times (when the title is non-empty), proper
nouns twice, body keywords and numbers once. -/
def keywordCandidates (text title : Str) : List Str :=
  (if title = [] then []
   else
     extractGeneralKeywords title ++ extractGeneralKeywords title ++
       extractGeneralKeywords title) ++
    (extractProperNouns text ++ extractProperNouns text) ++
    extractGeneralKeywords text ++ extractNumbers text

/-- `KeywordExtractor.extractKeywords`, with the `maxTags` fixed at
construction as a parameter. -/
def extractKeywords (maxTags : Nat) (text : Str) (title : Str) : List Str :=
  getTopKeywords (countFrequency (keywordCandidates text title)) maxTags

/-- The distinct keywords in first-seen insertion order (the enumeration order
of the `KeywordCount` object's keys). -/
def insertionOrder (ks : List Str) : List Str :=
  ks.foldl (fun acc k => if k ∈ acc then acc else acc ++ [k]) []

/-! ## AIService -/

/-- The provider union type `'openai' | 'gemini' | 'claude'`. -/
inductive AIProvider
  | openai
  | gemini
  | claude
deriving DecidableEq

/-- The settings object consumed by `AIService`. -/
structure KnowledgeExpanderSettings where
  aiProvider : AIProvider
  openaiApiKey : String
  openaiModel : String
  openaiWebSearchModel : String
  geminiApiKey : String
  geminiModel : String
  claudeApiKey : String
  claudeModel : String
  notePath : String
  systemPrompt : String
  templatePath : String
deriving DecidableEq

/-- The normalized result record; JS number token counts are natural numbers
here, the floating-point cost is modelled by an exact rational. -/
structure AIResponse where
  title : Str
  content : Str
  inputTokens : Nat
  outputTokens : Nat
  totalTokens : Nat
  estimatedCost : ℚ
deriving DecidableEq

/-- The static pricing table, per provider: `(modelId, (input, output))` in
currency per million tokens. -/
def PRICING_PER_MILLION_TOKENS : AIProvider → List (String × ℚ × ℚ)
  | .openai =>
    [("gpt-5.2", 1.75, 14.00), ("gpt-5.2-pro", 21.00, 168.00),
     ("gpt-5.1", 1.25, 10.00), ("gpt-5", 1.25, 10.00),
     ("gpt-5-mini", 0.25, 2.00), ("gpt-5-nano", 0.05, 0.40),
     ("gpt-5-pro", 15.00, 120.00), ("gpt-4.1", 2.00, 8.00),
     ("gpt-4.1-mini", 0.40, 1.60), ("gpt-4.1-nano", 0.10, 0.40),
     ("gpt-4o", 2.50, 10.00), ("gpt-4o-mini", 0.15, 0.60),
     ("o3", 2.00, 8.00), ("o3-pro", 20.00, 80.00),
     ("o4-mini", 1.10, 4.40), ("o1", 15.00, 60.00),
     ("o1-pro", 150.00, 600.00), ("o1-mini", 1.10, 4.40)]
  | .gemini =>
    [("gemini-1.5-flash", 0.075, 0.30), ("gemini-1.5-pro", 3.50, 10.50),
     ("gemini-2.0-flash", 0.10, 0.40)]
  | .claude =>
    [("claude-3-5-sonnet-20241022", 3.00, 15.00), ("claude-3-opus-20240229", 15.00, 75.00),
     ("claude-3-haiku-20240307", 0.25, 1.25)]

/-- `AIService.calculateCost`: the pricing lookup is an association-list
lookup, a missing model yields cost 0. -/
def calculateCost (provider : AIProvider) (model : String) (inputTokens outputTokens : Nat) :
    ℚ :=
  match (PRICING_PER_MILLION_TOKENS provider).find? (fun e => e.1 == model) with
  | none => 0
  | some e => (inputTokens : ℚ) / 1000000 * e.2.1 + (outputTokens : ℚ) / 1000000 * e.2.2

/-- The `usage` object of an OpenAI chat-completions reply. -/
structure ChatCompletionsUsage where
  prompt_tokens : Nat
  completion_tokens : Nat
  total_tokens : Nat
deriving DecidableEq

/-- `AIService.callOpenAIChatCompletions`, the response-shaping part: the
`AIResponse` built from the upstream content and usage. -/
def chatCompletionsResponse (model : String) (content : Str) (usage : ChatCompletionsUsage) :
    AIResponse :=
  ⟨[], content, usage.prompt_tokens, usage.completion_tokens, usage.total_tokens,
    calculateCost .openai model usage.prompt_tokens usage.completion_tokens⟩

/-- The `usage` object of an OpenAI responses-API reply; both token fields may
be absent (`undefined`), and the object itself may be absent. -/
structure ResponsesUsage where
  input_tokens : Option Nat
  output_tokens : Option Nat
deriving DecidableEq

/-- `data.usage || { input_tokens: 0, output_tokens: 0 }`. -/
def responsesUsageOrDefault (u? : Option ResponsesUsage) : ResponsesUsage :=
  u?.getD ⟨some 0, some 0⟩

/-- `AIService.callOpenAIResponses`, the response-shaping part:
`input_tokens || 0`, `output_tokens || 0`, total computed as their sum. -/
def responsesAPIResponse (model : String) (content : Str) (u? : Option ResponsesUsage) :
    AIResponse :=
  let u := responsesUsageOrDefault u?
  let i := u.input_tokens.getD 0
  let o := u.output_tokens.getD 0
  ⟨[], content, i, o, i + o, calculateCost .openai model i o⟩

/-- `AIService.callOpenAIWebSearch`, the response-shaping part (same usage
handling as the responses API, priced with the web-search model). -/
def webSearchResponse (webSearchModel : String) (content : Str) (u? : Option ResponsesUsage) :
    AIResponse :=
  let u := responsesUsageOrDefault u?
  let i := u.input_tokens.getD 0
  let o := u.output_tokens.getD 0
  ⟨[], content, i, o, i + o, calculateCost .openai webSearchModel i o⟩

/-- The `usageMetadata` object of a Gemini reply. -/
structure GeminiUsageMetadata where
  promptTokenCount : Nat
  candidatesTokenCount : Nat
  totalTokenCount : Nat
deriving DecidableEq

/-- `AIService.callGemini`, the response-shaping part. -/
def geminiResponse (model : String) (content : Str) (m : GeminiUsageMetadata) : AIResponse :=
  ⟨[], content, m.promptTokenCount, m.candidatesTokenCount, m.totalTokenCount,
    calculateCost .gemini model m.promptTokenCount m.candidatesTokenCount⟩

/-- The `usage` object of a Claude reply. -/
structure ClaudeUsage where
  input_tokens : Nat
  output_tokens : Nat
deriving DecidableEq

/-- `AIService.callClaude`, the response-shaping part: total computed as the
sum. -/
def claudeResponse (model : String) (content : Str) (u : ClaudeUsage) : AIResponse :=
  ⟨[], content, u.input_tokens, u.output_tokens, u.input_tokens + u.output_tokens,
    calculateCost .claude model u.input_tokens u.output_tokens⟩

/-- `startsWith` on plain strings, via the character lists. -/
def strStartsWith (s p : String) : Bool := p.data.isPrefixOf s.data

/-- `AIService.isResponsesAPIModel`. -/
def isResponsesAPIModel (model : String) : Bool :=
  strStartsWith model "gpt-5" || strStartsWith model "gpt-4.1" ||
    strStartsWith model "o3" || strStartsWith model "o4"

/-- A network request that an adapter is about to perform.  A constructed
`RequestPlan` marks the point where the source calls `requestUrl`; producing
an error instead means the call failed before any network request. -/
inductive RequestPlan
  | openaiChat (model : String) (prompt : Str)
  | openaiResponses (model : String) (prompt : Str)
  | openaiWebSearch (model : String) (prompt : Str)
  | geminiCall (model : String) (prompt : Str)
  | claudeCall (model : String) (prompt : Str)
deriving DecidableEq

/-- The optional "additional user question" section of both prompt builders. -/
def questionSection (userQuestion : Str) : Str :=
  if jsTrim userQuestion = [] then []
  else (str "\n\n사용자의 추가 질문:\n\"") ++ userQuestion ++ (str "\"")

/-- `AIService.buildPrompt`. -/
def buildPrompt (s : KnowledgeExpanderSettings) (selectedText contextStr userQuestion : Str) :
    Str :=
  (str s.systemPrompt) ++
    (str "\n\n반드시 응답의 첫 줄에 이 내용을 요약하는 간결한 제목을 작성해주세요. 제목은 \"제목: \"으로 시작하고, 20자 이내로 작성합니다.\n\n---\n선택된 텍스트:\n\"") ++
    selectedText ++ (str "\"\n\n주변 맥락:\n") ++ contextStr ++
    questionSection userQuestion ++ (str "\n---")

/-- `AIService.buildWebSearchPrompt`. -/
def buildWebSearchPrompt (selectedText contextStr userQuestion : Str) : Str :=
  (str "다음 텍스트에 대해 웹 검색을 통해 최신 정보와 관련 내용을 찾아 설명해주세요.\n\n반드시 응답의 첫 줄에 이 내용을 요약하는 간결한 제목을 작성해주세요. 제목은 \"제목: \"으로 시작하고, 20자 이내로 작성합니다.\n\n1000자 이내로 작성하고, md 파일의 마크다운 형태를 유지해주세요. 기본적인 소제목은 '##'를 사용하고, 최대 '###'까지만 사용합니다.\n\n검색 결과의 출처가 있다면 문서 하단에 참고 자료로 링크를 포함해주세요.\n\n---\n선택된 텍스트:\n\"") ++
    selectedText ++ (str "\"\n\n주변 맥락:\n") ++ contextStr ++
    questionSection userQuestion ++ (str "\n---")

/-- `AIService.callOpenAI` up to the network call: the credential check, the
model default `openaiModel || 'gpt-4o-mini'`, and the responses/chat-variant
selection. -/
def callOpenAI (s : KnowledgeExpanderSettings) (prompt : Str) : Except String RequestPlan :=
  if s.openaiApiKey = "" then .error "OpenAI API key is not configured"
  else
    let model := if s.openaiModel = "" then "gpt-4o-mini" else s.openaiModel
    if isResponsesAPIModel model then .ok (.openaiResponses model prompt)
    else .ok (.openaiChat model prompt)

/-- `AIService.callGemini` up to the network call. -/
def callGemini (s : KnowledgeExpanderSettings) (prompt : Str) : Except String RequestPlan :=
  if s.geminiApiKey = "" then .error "Gemini API key is not configured"
  else .ok (.geminiCall s.geminiModel prompt)

/-- `AIService.callClaude` up to the network call. -/
def callClaude (s : KnowledgeExpanderSettings) (prompt : Str) : Except String RequestPlan :=
  if s.claudeApiKey = "" then .error "Claude API key is not configured"
  else .ok (.claudeCall s.claudeModel prompt)

/-- `AIService.callOpenAIWebSearch` up to the network call. -/
def callOpenAIWebSearch (s : KnowledgeExpanderSettings) (prompt : Str) :
    Except String RequestPlan :=
  if s.openaiApiKey = "" then .error "OpenAI API key is not configured"
  else .ok (.openaiWebSearch s.openaiWebSearchModel prompt)

/-- `AIService.expandKnowledge` up to the network call: build the prompt, then
dispatch on the configured provider. -/
def expandKnowledgePlan (s : KnowledgeExpanderSettings)
    (selectedText contextStr userQuestion : Str) : Except String RequestPlan :=
  let prompt := buildPrompt s selectedText contextStr userQuestion
  match s.aiProvider with
  | .openai => callOpenAI s prompt
  | .gemini => callGemini s prompt
  | .claude => callClaude s prompt

/-- `AIService.webSearch` up to the network call: its own OpenAI-credential
check, then the web-search adapter. -/
def webSearchPlan (s : KnowledgeExpanderSettings)
    (selectedText contextStr userQuestion : Str) : Except String RequestPlan :=
  if s.openaiApiKey = "" then .error "OpenAI API key is required for web search"
  else callOpenAIWebSearch s (buildWebSearchPrompt selectedText contextStr userQuestion)

/-- The credential field of the given provider. -/
def credentialOf (s : KnowledgeExpanderSettings) : AIProvider → String
  | .openai => s.openaiApiKey
  | .gemini => s.geminiApiKey
  | .claude => s.claudeApiKey

/-- The configuration-error message each provider adapter raises. -/
def configErrorMessage : AIProvider → String
  | .openai => "OpenAI API key is not configured"
  | .gemini => "Gemini API key is not configured"
  | .claude => "Claude API key is not configured"

/-! ### Post-processing: code-fence stripping and title/body split -/

/-- `AIService.stripMarkdownCodeBlock`. -/
def stripMarkdownCodeBlock (content : Str) : Str :=
  let r := jsTrim content
  let r1 :=
    if (str "```markdown").isPrefixOf r then r.drop 11
    else if (str "```md").isPrefixOf r then r.drop 5
    else if (str "```").isPrefixOf r then r.drop 3
    else r
  let r2 := if (str "```").isSuffixOf r1 then r1.take (r1.length - 3) else r1
  jsTrim r2

/-- `split('\n')` on the character list; always returns at least one line. -/
def splitNl : Str → List Str
  | [] => [[]]
  | c :: rest =>
    match splitNl rest with
    | [] => [[]]
    | l :: ls => if c = '\n' then [] :: l :: ls else (c :: l) :: ls

/-- `join('\n')`. -/
def joinNl : List Str → Str
  | [] => []
  | [l] => l
  | l :: ls => l ++ '\n' :: joinNl ls

/-- `lines[0].replace(/^제목\s*:\s*/, '')`: if the line is `제목`, optional
whitespace, `:`, it is removed together with the whitespace after the colon;
otherwise the line is unchanged. -/
def stripTitleMarker (l : Str) : Str :=
  if (str "제목").isPrefixOf l then
    let r := (l.drop 2).dropWhile isSp
    match r with
    | ':' :: rest => rest.dropWhile isSp
    | _ => l
  else l

/-- `AIService.parseResponse`. -/
def parseResponse (rawContent : Str) : Str × Str :=
  let lines := splitNl (jsTrim rawContent)
  let l0 := lines.headD []
  if (str "제목:").isPrefixOf l0 || (str "제목 :").isPrefixOf l0 then
    let title := jsTrim (stripTitleMarker l0)
    let body := (lines.drop 1).dropWhile (fun l => jsTrim l = [])
    (title, jsTrim (joinNl body))
  else ([], jsTrim (joinNl lines))

/-- `parseResponse` as the specification words it: if the first line starts
with the literal marker `제목:` or `제목 :`, the title is everything after the
marker (trimmed), that line and any immediately following blank lines are
skipped and the remainder (trimmed) is the content; otherwise the title is
empty and the content is the full trimmed input. -/
def parseResponseSpec (rawContent : Str) : Str × Str :=
  let t := jsTrim rawContent
  let lines := splitNl t
  let l0 := lines.headD []
  if (str "제목 :").isPrefixOf l0 then
    (jsTrim (l0.drop 4),
      jsTrim (joinNl ((lines.drop 1).dropWhile (fun l => jsTrim l = []))))
  else if (str "제목:").isPrefixOf l0 then
    (jsTrim (l0.drop 3),
      jsTrim (joinNl ((lines.drop 1).dropWhile (fun l => jsTrim l = []))))
  else ([], t)

/-- A settings value with the Gemini provider selected and every credential
blank. -/
def emptyKeySettings : KnowledgeExpanderSettings :=
  ⟨.gemini, "", "gpt-4o", "gpt-4o-mini", "", "gemini-1.5-flash", "",
    "claude-3-5-sonnet-20241022", "", "prompt", ""⟩

/-- Association-list lookup with default 0, the read `freq[keyword] || 0`. -/
def lookupD : List (Str × Nat) → Str → Nat
  | [], _ => 0
  | p :: rest, k => if p.1 = k then p.2 else lookupD rest k

/-! ## Lemmas: trimming -/

theorem dropWhile_idem_sp (p : Char → Bool) (l : Str) :
    (l.dropWhile p).dropWhile p = l.dropWhile p := by
  induction l with
  | nil => rfl
  | cons c t ih =>
    by_cases h : p c
    · simp [List.dropWhile_cons, h, ih]
    · simp [List.dropWhile_cons, h]

theorem trimL_idem (l : Str) : trimL (trimL l) = trimL l := dropWhile_idem_sp isSp l

theorem trimR_idem (l : Str) : trimR (trimR l) = trimR l := by
  simp [trimR, dropWhile_idem_sp]

theorem trimL_head_not_sp : ∀ {l : Str} {c : Char} {t : Str}, trimL l = c :: t →
    isSp c = false := by
  intro l
  induction l with
  | nil => intro c t h; simp [trimL] at h
  | cons a l ih =>
    intro c t h
    rw [trimL, List.dropWhile_cons] at h
    by_cases ha : isSp a
    · rw [if_pos ha] at h
      exact ih h
    · rw [if_neg ha] at h
      cases h
      simpa using ha

theorem trimR_prefix (l : Str) : trimR l <+: l := by
  have h := List.reverse_prefix.mpr (List.dropWhile_suffix (l := l.reverse) isSp)
  rwa [List.reverse_reverse] at h

theorem trimL_cons_not_sp {c : Char} (t : Str) (h : isSp c = false) :
    trimL (c :: t) = c :: t := by
  simp [trimL, List.dropWhile_cons, h]

theorem trimL_trimR_trimL (l : Str) : trimL (trimR (trimL l)) = trimR (trimL l) := by
  cases hu : trimR (trimL l) with
  | nil => rfl
  | cons c t =>
    obtain ⟨s, hs⟩ := trimR_prefix (trimL l)
    rw [hu] at hs
    exact trimL_cons_not_sp t (trimL_head_not_sp (l := l) hs.symm)

theorem jsTrim_idem (l : Str) : jsTrim (jsTrim l) = jsTrim l := by
  rw [jsTrim, jsTrim, trimL_trimR_trimL, trimR_idem]

theorem jsTrim_trimL (l : Str) : jsTrim (trimL l) = jsTrim l := by
  rw [jsTrim, trimL_idem, jsTrim]

theorem jsTrim_dropWhile_sp (l : Str) : jsTrim (l.dropWhile isSp) = jsTrim l :=
  jsTrim_trimL l

theorem trimR_eq_self {l : Str} (h : ∀ c t, l.reverse = c :: t → isSp c = false) :
    trimR l = l := by
  cases hr : l.reverse with
  | nil =>
    have : l = [] := by simpa using congrArg List.reverse hr
    simp [this, trimR]
  | cons c t =>
    rw [trimR, hr, List.dropWhile_cons, if_neg (by simp [h c t hr]), ← hr,
      List.reverse_reverse]

theorem jsTrim_eq_self {l : Str} (h1 : ∀ c t, l = c :: t → isSp c = false)
    (h2 : ∀ c t, l.reverse = c :: t → isSp c = false) : jsTrim l = l := by
  have hL : trimL l = l := by
    cases l with
    | nil => rfl
    | cons c t => exact trimL_cons_not_sp t (h1 c t rfl)
  rw [jsTrim, hL, trimR_eq_self h2]

/-! ## Lemmas: line splitting -/

theorem splitNl_ne_nil (l : Str) : splitNl l ≠ [] := by
  cases l with
  | nil => simp [splitNl]
  | cons c t =>
    rw [splitNl]
    rcases splitNl t with _ | ⟨a, as⟩
    · simp
    · by_cases h : c = '\n' <;> simp [h]

theorem joinNl_splitNl (l : Str) : joinNl (splitNl l) = l := by
  induction l with
  | nil => rfl
  | cons c t ih =>
    rw [splitNl]
    rcases h : splitNl t with _ | ⟨a, as⟩
    · exact absurd h (splitNl_ne_nil t)
    · rw [h] at ih
      by_cases hc : c = '\n'
      · subst hc
        simpa [joinNl] using ih
      · simp only [if_neg hc]
        cases as with
        | nil => simpa [joinNl] using ih
        | cons b bs => simpa [joinNl] using ih

/-! ## C9: code-fence stripping is idempotent on fence-free input -/

theorem strip_fence_free (u : Str)
    (hp : (str "```").isPrefixOf (jsTrim u) = false)
    (hs : (str "```").isSuffixOf (jsTrim u) = false) :
    stripMarkdownCodeBlock u = jsTrim u := by
  have hpfx : ∀ v : Str, (str "```") <+: v → (str "```").isPrefixOf (jsTrim u) = true →
      False := by
    intro v _ h
    rw [hp] at h
    exact Bool.false_ne_true h
  have hmd : (str "```markdown").isPrefixOf (jsTrim u) = false := by
    cases h : (str "```markdown").isPrefixOf (jsTrim u) with
    | false => rfl
    | true =>
      have h' := List.isPrefixOf_iff_prefix.mp h
      have : (str "```") <+: jsTrim u :=
        List.IsPrefix.trans (by decide) h'
      rw [← List.isPrefixOf_iff_prefix] at this
      rw [hp] at this
      exact absurd this (by simp)
  have hmd2 : (str "```md").isPrefixOf (jsTrim u) = false := by
    cases h : (str "```md").isPrefixOf (jsTrim u) with
    | false => rfl
    | true =>
      have h' := List.isPrefixOf_iff_prefix.mp h
      have : (str "```") <+: jsTrim u :=
        List.IsPrefix.trans (by decide) h'
      rw [← List.isPrefixOf_iff_prefix] at this
      rw [hp] at this
      exact absurd this (by simp)
  rw [stripMarkdownCodeBlock]
  simp only [hmd, hmd2, hp, hs, Bool.false_eq_true, if_false, jsTrim_idem]

/-- **C9.** Code-fence stripping is idempotent: on any input whose trimmed form
neither starts nor ends with a fence ```` ``` ````, `stripMarkdownCodeBlock`
returns the input unchanged except for trimming, and applying the stripper to
its own output returns that output unchanged. -/
theorem stripMarkdownCodeBlock_idem (s : Str)
    (hp : (str "```").isPrefixOf (jsTrim s) = false)
    (hs : (str "```").isSuffixOf (jsTrim s) = false) :
    stripMarkdownCodeBlock s = jsTrim s ∧
      stripMarkdownCodeBlock (stripMarkdownCodeBlock s) = stripMarkdownCodeBlock s := by
  have e := strip_fence_free s hp hs
  refine ⟨e, ?_⟩
  rw [e]
  have e2 : stripMarkdownCodeBlock (jsTrim s) = jsTrim (jsTrim s) := by
    apply strip_fence_free <;> rw [jsTrim_idem] <;> assumption
  rw [e2, jsTrim_idem]

/-- Witness for C9 at the concrete fence-free input `"hello world"`. -/
theorem stripMarkdownCodeBlock_idem_witness :
    ((str "```").isPrefixOf (jsTrim (str "hello world")) = false) ∧
      ((str "```").isSuffixOf (jsTrim (str "hello world")) = false) ∧
      stripMarkdownCodeBlock (str "hello world") = jsTrim (str "hello world") ∧
      stripMarkdownCodeBlock (stripMarkdownCodeBlock (str "hello world")) =
        stripMarkdownCodeBlock (str "hello world") :=
  ⟨by decide, by decide,
    (stripMarkdownCodeBlock_idem (str "hello world") (by decide) (by decide)).1,
    (stripMarkdownCodeBlock_idem (str "hello world") (by decide) (by decide)).2⟩

/-! ## C4: the title/body split -/

theorem stripTitleMarker_space_colon (u : Str) :
    jsTrim (stripTitleMarker (str "제목 :" ++ u)) = jsTrim u := by
  show jsTrim (u.dropWhile isSp) = jsTrim u
  exact jsTrim_dropWhile_sp u

theorem stripTitleMarker_colon (u : Str) :
    jsTrim (stripTitleMarker (str "제목:" ++ u)) = jsTrim u := by
  show jsTrim (u.dropWhile isSp) = jsTrim u
  exact jsTrim_dropWhile_sp u

theorem parseResponse_eq_spec (raw : Str) : parseResponse raw = parseResponseSpec raw := by
  by_cases hsp : (str "제목 :").isPrefixOf ((splitNl (jsTrim raw)).headD []) = true
  · obtain ⟨u, hu⟩ := List.isPrefixOf_iff_prefix.mp hsp
    have hc : (str "제목:").isPrefixOf ((splitNl (jsTrim raw)).headD []) = false := by
      rw [← hu]; rfl
    rw [parseResponse, parseResponseSpec]
    simp only [hsp, hc, Bool.false_or, Bool.or_false, if_true, Bool.false_eq_true, if_false]
    rw [← hu]
    rw [stripTitleMarker_space_colon]
    have : (str "제목 :" ++ u).drop 4 = u := rfl
    rw [this]
  · have hsp' : (str "제목 :").isPrefixOf ((splitNl (jsTrim raw)).headD []) = false :=
      Bool.not_eq_true _ ▸ Bool.of_not_eq_true hsp
    by_cases hcol : (str "제목:").isPrefixOf ((splitNl (jsTrim raw)).headD []) = true
    · obtain ⟨u, hu⟩ := List.isPrefixOf_iff_prefix.mp hcol
      rw [parseResponse, parseResponseSpec]
      simp only [hcol, hsp', Bool.true_or, Bool.or_true, if_true, Bool.false_eq_true, if_false]
      rw [← hu]
      rw [stripTitleMarker_colon]
      have : (str "제목:" ++ u).drop 3 = u := rfl
      rw [this]
    · have hcol' : (str "제목:").isPrefixOf ((splitNl (jsTrim raw)).headD []) = false :=
        Bool.not_eq_true _ ▸ Bool.of_not_eq_true hcol
      rw [parseResponse, parseResponseSpec]
      simp only [hcol', hsp', Bool.or_self, Bool.false_eq_true, if_false, Bool.false_or]
      rw [joinNl_splitNl, jsTrim_idem]

/-- **C4.** The title/body post-processing behaves as specified: if the first
line of the trimmed text starts with `제목:` or `제목 :` (optional space before
the colon), the title is everything after the marker (trimmed), that line and
any immediately following blank lines are skipped and the remainder (trimmed)
is the content; otherwise the title is empty and the content equals the full
trimmed input.  In particular `"제목: 테스트 제목\n\n본문 내용"` parses to
title `"테스트 제목"`, content `"본문 내용"`. -/
theorem parseResponse_spec_correct :
    (∀ raw : Str, parseResponse raw = parseResponseSpec raw) ∧
      parseResponse (str "제목: 테스트 제목\n\n본문 내용") =
        (str "테스트 제목", str "본문 내용") :=
  ⟨parseResponse_eq_spec, by decide⟩

/-! ## C6: cost computation -/

/-- **C6.** Cost computation: when `(provider, model)` is present in the static
pricing table the cost equals `inputTokens/1e6 * input + outputTokens/1e6 *
output` for the table entry; when the entry is absent the cost is exactly 0
(the computation is a total function, so it never fails); and a model priced at
2.50 per million input and 10.00 per million output tokens (`gpt-4o`) with 1000
input and 500 output tokens costs exactly 0.0075. -/
theorem calculateCost_spec :
    (∀ (p : AIProvider) (model : String) (i o : Nat) (e : String × ℚ × ℚ),
        (PRICING_PER_MILLION_TOKENS p).find? (fun r => r.1 == model) = some e →
          calculateCost p model i o =
            (i : ℚ) / 1000000 * e.2.1 + (o : ℚ) / 1000000 * e.2.2) ∧
      (∀ (p : AIProvider) (model : String) (i o : Nat),
        (PRICING_PER_MILLION_TOKENS p).find? (fun r => r.1 == model) = none →
          calculateCost p model i o = 0) ∧
      calculateCost .openai "gpt-4o" 1000 500 = (0.0075 : ℚ) := by
  refine ⟨?_, ?_, ?_⟩
  · intro p model i o e h
    rw [calculateCost, h]
  · intro p model i o h
    rw [calculateCost, h]
  · have hfind : (PRICING_PER_MILLION_TOKENS .openai).find? (fun r => r.1 == "gpt-4o") =
        some ("gpt-4o", 2.50, 10.00) := rfl
    rw [calculateCost, hfind]
    norm_num

/-- Witness for C6: the present entry `gpt-4o` and an absent model. -/
theorem calculateCost_spec_witness :
    calculateCost .openai "gpt-4o" 1000 500 =
        (1000 : ℚ) / 1000000 * 2.50 + (500 : ℚ) / 1000000 * 10.00 ∧
      calculateCost .gemini "no-such-model" 3 4 = 0 :=
  ⟨calculateCost_spec.1 .openai "gpt-4o" 1000 500 ("gpt-4o", 2.50, 10.00) rfl,
    calculateCost_spec.2.1 .gemini "no-such-model" 3 4 rfl⟩

/-! ## C2: the token-total invariant across adapters -/

/-- **C2 (counterexample).** The chat-completions adapter copies the upstream
`total_tokens` field verbatim rather than computing it, so the accepted usage
report `(prompt 1, completion 1, total 5)` produces an `AIResponse` violating
`totalTokens = inputTokens + outputTokens`. -/
theorem chatCompletions_total_counterexample :
    (chatCompletionsResponse "gpt-4o" (str "x") ⟨1, 1, 5⟩).totalTokens ≠
      (chatCompletionsResponse "gpt-4o" (str "x") ⟨1, 1, 5⟩).inputTokens +
        (chatCompletionsResponse "gpt-4o" (str "x") ⟨1, 1, 5⟩).outputTokens := by
  decide

/-- **C2 (amended).** The responses-API, web-search and Claude adapters compute
`totalTokens` as `inputTokens + outputTokens`, and the responses adapter with
an absent usage object yields 0/0/0; the chat-completions and Gemini adapters
copy the upstream-reported total verbatim, so for them the invariant holds
exactly on upstream reports whose total equals the sum. -/
theorem adapters_totalTokens (model : String) (content : Str) :
    (∀ u? : Option ResponsesUsage,
        (responsesAPIResponse model content u?).totalTokens =
          (responsesAPIResponse model content u?).inputTokens +
            (responsesAPIResponse model content u?).outputTokens) ∧
      (∀ u? : Option ResponsesUsage,
        (webSearchResponse model content u?).totalTokens =
          (webSearchResponse model content u?).inputTokens +
            (webSearchResponse model content u?).outputTokens) ∧
      (∀ u : ClaudeUsage,
        (claudeResponse model content u).totalTokens =
          (claudeResponse model content u).inputTokens +
            (claudeResponse model content u).outputTokens) ∧
      ((responsesAPIResponse model content none).inputTokens = 0 ∧
        (responsesAPIResponse model content none).outputTokens = 0 ∧
        (responsesAPIResponse model content none).totalTokens = 0) ∧
      (∀ u : ChatCompletionsUsage,
        u.total_tokens = u.prompt_tokens + u.completion_tokens →
          (chatCompletionsResponse model content u).totalTokens =
            (chatCompletionsResponse model content u).inputTokens +
              (chatCompletionsResponse model content u).outputTokens) ∧
      (∀ m : GeminiUsageMetadata,
        m.totalTokenCount = m.promptTokenCount + m.candidatesTokenCount →
          (geminiResponse model content m).totalTokens =
            (geminiResponse model content m).inputTokens +
              (geminiResponse model content m).outputTokens) :=
  ⟨fun _ => rfl, fun _ => rfl, fun _ => rfl, ⟨rfl, rfl, rfl⟩, fun _ h => h, fun _ h => h⟩

/-- Witness for the conditional conjuncts of the amended C2, at consistent
concrete usage reports. -/
theorem adapters_totalTokens_witness :
    (chatCompletionsResponse "gpt-4o" (str "x") ⟨2, 3, 5⟩).totalTokens =
        (chatCompletionsResponse "gpt-4o" (str "x") ⟨2, 3, 5⟩).inputTokens +
          (chatCompletionsResponse "gpt-4o" (str "x") ⟨2, 3, 5⟩).outputTokens ∧
      (geminiResponse "gemini-1.5-flash" (str "x") ⟨2, 3, 5⟩).totalTokens =
        (geminiResponse "gemini-1.5-flash" (str "x") ⟨2, 3, 5⟩).inputTokens +
          (geminiResponse "gemini-1.5-flash" (str "x") ⟨2, 3, 5⟩).outputTokens ∧
      (responsesAPIResponse "gpt-5" (str "x") (some ⟨some 4, some 6⟩)).totalTokens =
        (responsesAPIResponse "gpt-5" (str "x") (some ⟨some 4, some 6⟩)).inputTokens +
          (responsesAPIResponse "gpt-5" (str "x") (some ⟨some 4, some 6⟩)).outputTokens :=
  ⟨(adapters_totalTokens "gpt-4o" (str "x")).2.2.2.2.1 ⟨2, 3, 5⟩ rfl,
    (adapters_totalTokens "gemini-1.5-flash" (str "x")).2.2.2.2.2 ⟨2, 3, 5⟩ rfl,
    (adapters_totalTokens "gpt-5" (str "x")).1 (some ⟨some 4, some 6⟩)⟩

/-! ## C5: missing credentials fail before any network request -/

/-- **C5.** With the selected provider's credential blank, `expandKnowledge`
fails with that provider's configuration-error message without constructing a
request plan, and `webSearch` with a blank OpenAI credential fails with its own
message regardless of the configured default provider. -/
theorem missing_credential_fails_fast (s : KnowledgeExpanderSettings)
    (selectedText contextStr userQuestion : Str) :
    (credentialOf s s.aiProvider = "" →
        expandKnowledgePlan s selectedText contextStr userQuestion =
          .error (configErrorMessage s.aiProvider)) ∧
      (s.openaiApiKey = "" →
        webSearchPlan s selectedText contextStr userQuestion =
          .error "OpenAI API key is required for web search") := by
  constructor
  · intro h
    cases hp : s.aiProvider with
    | openai =>
      rw [hp, credentialOf] at h
      simp [expandKnowledgePlan, hp, callOpenAI, h, configErrorMessage]
    | gemini =>
      rw [hp, credentialOf] at h
      simp [expandKnowledgePlan, hp, callGemini, h, configErrorMessage]
    | claude =>
      rw [hp, credentialOf] at h
      simp [expandKnowledgePlan, hp, callClaude, h, configErrorMessage]
  · intro h
    rw [webSearchPlan, if_pos h]

/-- Witness for C5 at a concrete settings value with blank credentials. -/
theorem missing_credential_fails_fast_witness :
    credentialOf emptyKeySettings emptyKeySettings.aiProvider = "" ∧
      expandKnowledgePlan emptyKeySettings (str "sel") (str "ctx") (str "") =
        .error (configErrorMessage emptyKeySettings.aiProvider) ∧
      emptyKeySettings.openaiApiKey = "" ∧
      webSearchPlan emptyKeySettings (str "sel") (str "ctx") (str "") =
        .error "OpenAI API key is required for web search" :=
  ⟨rfl,
    (missing_credential_fails_fast emptyKeySettings (str "sel") (str "ctx") (str "")).1 rfl,
    rfl,
    (missing_credential_fails_fast emptyKeySettings (str "sel") (str "ctx") (str "")).2 rfl⟩

/-! ## Lemmas: frequency counting -/

theorem bump_map_fst (l : List (Str × Nat)) (k : Str) :
    (bump l k).map Prod.fst =
      if k ∈ l.map Prod.fst then l.map Prod.fst else l.map Prod.fst ++ [k] := by
  induction l with
  | nil => simp [bump]
  | cons p rest ih =>
    obtain ⟨k', n⟩ := p
    by_cases h : k' = k
    · subst h
      simp [bump]
    · have hmem : k ∈ (k', n).1 :: List.map Prod.fst rest ↔ k ∈ rest.map Prod.fst := by
        simp [Ne.symm h]
      rw [bump, if_neg h, List.map_cons, List.map_cons]
      by_cases hk : k ∈ rest.map Prod.fst
      · rw [if_pos (hmem.mpr hk)]
        rw [ih, if_pos hk]
      · rw [if_neg (fun hc => hk (hmem.mp hc))]
        rw [ih, if_neg hk]
        rfl

theorem foldl_bump_map_fst (ks : List Str) (acc : List (Str × Nat)) :
    (ks.foldl bump acc).map Prod.fst =
      ks.foldl (fun a k => if k ∈ a then a else a ++ [k]) (acc.map Prod.fst) := by
  induction ks generalizing acc with
  | nil => rfl
  | cons k ks ih =>
    rw [List.foldl_cons, List.foldl_cons, ih, bump_map_fst]

theorem countFrequency_keys (ks : List Str) :
    (countFrequency ks).map Prod.fst = insertionOrder ks :=
  foldl_bump_map_fst ks []

theorem insertionOrder_nodup_aux (ks : List Str) (acc : List Str) (h : acc.Nodup) :
    (ks.foldl (fun a k => if k ∈ a then a else a ++ [k]) acc).Nodup := by
  induction ks generalizing acc with
  | nil => exact h
  | cons k ks ih =>
    rw [List.foldl_cons]
    by_cases hk : k ∈ acc
    · rw [if_pos hk]
      exact ih _ h
    · rw [if_neg hk]
      refine ih _ ?_
      simp [List.nodup_append, h, hk]

theorem insertionOrder_nodup (ks : List Str) : (insertionOrder ks).Nodup :=
  insertionOrder_nodup_aux ks [] List.nodup_nil

theorem insertionOrder_subset_aux (ks : List Str) (acc : List Str) :
    ∀ x ∈ ks.foldl (fun a k => if k ∈ a then a else a ++ [k]) acc, x ∈ acc ∨ x ∈ ks := by
  induction ks generalizing acc with
  | nil => exact fun x hx => .inl hx
  | cons k ks ih =>
    intro x hx
    rw [List.foldl_cons] at hx
    by_cases hk : k ∈ acc
    · rw [if_pos hk] at hx
      rcases ih _ x hx with h | h
      · exact .inl h
      · exact .inr (List.mem_cons_of_mem _ h)
    · rw [if_neg hk] at hx
      rcases ih _ x hx with h | h
      · rcases List.mem_append.mp h with h | h
        · exact .inl h
        · simp only [List.mem_singleton] at h
          subst h
          exact .inr (List.mem_cons_self _ _)
      · exact .inr (List.mem_cons_of_mem _ h)

theorem insertionOrder_subset (ks : List Str) : ∀ x ∈ insertionOrder ks, x ∈ ks := by
  intro x hx
  rcases insertionOrder_subset_aux ks [] x hx with h | h
  · cases h
  · exact h

theorem lookupD_bump_self (l : List (Str × Nat)) (k : Str) :
    lookupD (bump l k) k = lookupD l k + 1 := by
  induction l with
  | nil => simp [bump, lookupD]
  | cons p rest ih =>
    obtain ⟨k', n⟩ := p
    by_cases h : k' = k
    · subst h
      simp [bump, lookupD]
    · rw [bump, if_neg h, lookupD, if_neg h, lookupD, if_neg h]
      exact ih

theorem lookupD_bump_other (l : List (Str × Nat)) (k k' : Str) (h : k ≠ k') :
    lookupD (bump l k) k' = lookupD l k' := by
  induction l with
  | nil => simp [bump, lookupD, h]
  | cons p rest ih =>
    obtain ⟨a, n⟩ := p
    by_cases ha : a = k
    · subst ha
      rw [bump, if_pos rfl, lookupD, lookupD]
      simp [h]
    · rw [bump, if_neg ha, lookupD, lookupD]
      by_cases ha' : a = k'
      · rw [if_pos ha', if_pos ha']
      · rw [if_neg ha', if_neg ha']
        exact ih

theorem lookupD_foldl_bump (ks : List Str) (acc : List (Str × Nat)) (k : Str) :
    lookupD (ks.foldl bump acc) k = lookupD acc k + ks.count k := by
  induction ks generalizing acc with
  | nil => simp
  | cons a ks ih =>
    rw [List.foldl_cons, ih]
    by_cases h : a = k
    · subst h
      rw [lookupD_bump_self, List.count_cons_self]
      omega
    · rw [lookupD_bump_other _ _ _ h, List.count_cons_of_ne (fun hc => h hc.symm)]

theorem countFrequency_lookupD (ks : List Str) (k : Str) :
    lookupD (countFrequency ks) k = ks.count k := by
  have h := lookupD_foldl_bump ks [] k
  rw [countFrequency, h]
  simp [lookupD]

theorem mem_lookupD {l : List (Str × Nat)} (hn : (l.map Prod.fst).Nodup) :
    ∀ p ∈ l, p.2 = lookupD l p.1 := by
  induction l with
  | nil => intro p hp; cases hp
  | cons q rest ih =>
    intro p hp
    rw [List.map_cons, List.nodup_cons] at hn
    rcases List.mem_cons.mp hp with h | h
    · subst h
      simp [lookupD]
    · have hq : q.1 ≠ p.1 := by
        intro he
        exact hn.1 (he ▸ List.mem_map_of_mem Prod.fst h)
      rw [lookupD, if_neg hq]
      exact ih hn.2 p h

theorem countFrequency_counts (ks : List Str) :
    ∀ p ∈ countFrequency ks, p.2 = ks.count p.1 := by
  intro p hp
  rw [mem_lookupD (countFrequency_keys ks ▸ insertionOrder_nodup ks) p hp,
    countFrequency_lookupD]

/-! ## Lemmas: the stable sort -/

theorem sortEntries_perm (l : List (Str × Nat)) : List.Perm (sortEntries l) l :=
  List.perm_insertionSort _ l

theorem sortEntries_sorted (l : List (Str × Nat)) :
    List.Sorted (fun x y => y.2 ≤ x.2) (sortEntries l) :=
  List.sorted_insertionSort _ l

theorem sortEntries_stable (l : List (Str × Nat)) (c : Nat) :
    (sortEntries l).filter (fun p => decide (p.2 = c)) =
      l.filter (fun p => decide (p.2 = c)) := by
  have hsub : List.Sublist (l.filter (fun p => decide (p.2 = c))) (sortEntries l) := by
    apply List.sublist_insertionSort
    · refine List.pairwise_of_forall_mem_list ?_
      intro a ha b hb
      have ha' : a.2 = c := by simpa using (List.mem_filter.mp ha).2
      have hb' : b.2 = c := by simpa using (List.mem_filter.mp hb).2
      rw [ha', hb']
    · exact List.filter_sublist l
  have hperm : List.Perm ((sortEntries l).filter (fun p => decide (p.2 = c)))
      (l.filter (fun p => decide (p.2 = c))) := (sortEntries_perm l).filter _
  have h2 : List.Sublist (l.filter (fun p => decide (p.2 = c)))
      ((sortEntries l).filter (fun p => decide (p.2 = c))) := by
    have h3 := hsub.filter (fun p => decide (p.2 = c))
    rwa [List.filter_filter, (by funext p; simp : (fun p : Str × Nat =>
      (decide (p.2 = c) && decide (p.2 = c))) = fun p => decide (p.2 = c))] at h3
  exact (h2.eq_of_length hperm.length_eq.symm).symm

/-! ## C8: the ranking step -/

/-- **C8.** The final ranking step: `getTopKeywords` over the frequency map of
the candidate multiset `ks` takes the first `n` of the distinct candidates
sorted stably by descending count.  Precisely: the frequency map's keys are
the distinct candidates in first-seen insertion order with their exact counts;
the sorted entry list is a permutation of them, is sorted by non-increasing
count, and candidates of equal count keep their first-seen order (the
per-count filters coincide); the result is the first `n` keys of that order. -/
theorem getTopKeywords_ranking (ks : List Str) (n : Nat) :
    getTopKeywords (countFrequency ks) n =
        ((sortEntries (countFrequency ks)).map Prod.fst).take n ∧
      (countFrequency ks).map Prod.fst = insertionOrder ks ∧
      (∀ p ∈ countFrequency ks, p.2 = ks.count p.1) ∧
      List.Perm ((sortEntries (countFrequency ks)).map Prod.fst) (insertionOrder ks) ∧
      List.Sorted (fun x y => y.2 ≤ x.2) (sortEntries (countFrequency ks)) ∧
      (∀ c : Nat, (sortEntries (countFrequency ks)).filter (fun p => decide (p.2 = c)) =
        (countFrequency ks).filter (fun p => decide (p.2 = c))) :=
  ⟨rfl, countFrequency_keys ks, countFrequency_counts ks,
    countFrequency_keys ks ▸ (sortEntries_perm (countFrequency ks)).map Prod.fst,
    sortEntries_sorted _, sortEntries_stable _⟩

/-- Witness for C8 at the concrete multiset `["b", "a", "b"]`. -/
theorem getTopKeywords_ranking_witness :
    (str "b", 2) ∈ countFrequency [str "b", str "a", str "b"] ∧
      (2 = List.count (str "b") [str "b", str "a", str "b"]) ∧
      getTopKeywords (countFrequency [str "b", str "a", str "b"]) 5 = [str "b", str "a"] :=
  ⟨by decide,
    (getTopKeywords_ranking [str "b", str "a", str "b"] 5).2.2.1 (str "b", 2) (by decide),
    by decide⟩

/-! ## C1: size bound, distinctness, verbatim candidates -/

/-- **C1.** For every text, title and positive `maxTags`, `extractKeywords`
returns at most `maxTags` strings, no two equal, and every returned string is
(case-sensitively) one of the matched candidate strings, with no normalization
applied. -/
theorem extractKeywords_card_nodup (maxTags : Nat) (_hpos : 0 < maxTags)
    (text title : Str) :
    (extractKeywords maxTags text title).length ≤ maxTags ∧
      (extractKeywords maxTags text title).Nodup ∧
      ∀ k ∈ extractKeywords maxTags text title, k ∈ keywordCandidates text title := by
  have hkeys : List.Perm ((sortEntries (countFrequency (keywordCandidates text title))).map
      Prod.fst) (insertionOrder (keywordCandidates text title)) :=
    countFrequency_keys _ ▸ (sortEntries_perm _).map Prod.fst
  have hnodup : ((sortEntries (countFrequency (keywordCandidates text title))).map
      Prod.fst).Nodup :=
    hkeys.symm.nodup (insertionOrder_nodup _)
  refine ⟨?_, ?_, ?_⟩
  · exact List.length_take_le _ _
  · exact hnodup.sublist (List.take_sublist _ _)
  · intro k hk
    have h1 : k ∈ (sortEntries (countFrequency (keywordCandidates text title))).map
        Prod.fst := List.mem_of_mem_take hk
    exact insertionOrder_subset _ k (hkeys.mem_iff.mp h1)

/-- Witness for C1 at `maxTags = 20`, text `"the"`, empty title. -/
theorem extractKeywords_card_nodup_witness :
    0 < 20 ∧ (extractKeywords 20 (str "the") (str "")).length ≤ 20 ∧
      (extractKeywords 20 (str "the") (str "")).Nodup ∧
      str "the" ∈ extractKeywords 20 (str "the") (str "") ∧
      str "the" ∈ keywordCandidates (str "the") (str "") :=
  ⟨by decide, (extractKeywords_card_nodup 20 (by decide) (str "the") (str "")).1,
    (extractKeywords_card_nodup 20 (by decide) (str "the") (str "")).2.1,
    by decide,
    (extractKeywords_card_nodup 20 (by decide) (str "the") (str "")).2.2 (str "the")
      (by decide)⟩

/-! ## Lemmas: character classes -/

theorem isSp_false_of_large {c : Char} (h : 48 ≤ c.toNat) : isSp c = false := by
  rw [isSp]
  have h1 : c ≠ ' ' := fun e => by rw [e] at h; exact absurd h (by decide)
  have h2 : c ≠ '\t' := fun e => by rw [e] at h; exact absurd h (by decide)
  have h3 : c ≠ '\n' := fun e => by rw [e] at h; exact absurd h (by decide)
  have h4 : c ≠ '\r' := fun e => by rw [e] at h; exact absurd h (by decide)
  have h5 : c ≠ '\x0b' := fun e => by rw [e] at h; exact absurd h (by decide)
  have h6 : c ≠ '\x0c' := fun e => by rw [e] at h; exact absurd h (by decide)
  simp [h1, h2, h3, h4, h5, h6]

theorem upper_bounds {c : Char} (h : isUpperC c = true) :
    65 ≤ c.toNat ∧ c.toNat ≤ 90 := by
  rw [isUpperC] at h
  simpa using h

theorem lower_bounds {c : Char} (h : isLowerC c = true) :
    97 ≤ c.toNat ∧ c.toNat ≤ 122 := by
  rw [isLowerC] at h
  simpa using h

theorem digit_bounds {c : Char} (h : isDigitC c = true) :
    48 ≤ c.toNat ∧ c.toNat ≤ 57 := by
  rw [isDigitC] at h
  simpa using h

theorem hangul_bounds {c : Char} (h : isHangulC c = true) :
    0xAC00 ≤ c.toNat ∧ c.toNat ≤ 0xD7A3 := by
  rw [isHangulC] at h
  simpa using h

theorem hangul_not_upper {c : Char} (h : isHangulC c = true) : isUpperC c = false := by
  rw [Bool.eq_false_iff]
  intro hu
  have h1 := hangul_bounds h
  have h2 := upper_bounds hu
  omega

theorem hangul_not_lower {c : Char} (h : isHangulC c = true) : isLowerC c = false := by
  rw [Bool.eq_false_iff]
  intro hu
  have h1 := hangul_bounds h
  have h2 := lower_bounds hu
  omega

theorem alpha_not_hangul {c : Char} (h : isAlphaC c = true) : isHangulC c = false := by
  rw [Bool.eq_false_iff]
  intro hh
  have h1 := hangul_bounds hh
  rw [isAlphaC, Bool.or_eq_true] at h
  rcases h with h | h
  · have := upper_bounds h; omega
  · have := lower_bounds h; omega

theorem sp_false_of_upper {c : Char} (h : isUpperC c = true) : isSp c = false :=
  isSp_false_of_large (by have := upper_bounds h; omega)

theorem sp_false_of_lower {c : Char} (h : isLowerC c = true) : isSp c = false :=
  isSp_false_of_large (by have := lower_bounds h; omega)

theorem sp_false_of_digit {c : Char} (h : isDigitC c = true) : isSp c = false :=
  isSp_false_of_large (by have := digit_bounds h; omega)

theorem sp_false_of_alpha {c : Char} (h : isAlphaC c = true) : isSp c = false := by
  rw [isAlphaC, Bool.or_eq_true] at h
  rcases h with h | h
  · exact sp_false_of_upper h
  · exact sp_false_of_lower h

theorem hangul_toLowerC {c : Char} (h : isHangulC c = true) : toLowerC c = c := by
  rw [toLowerC, if_neg]
  rw [hangul_not_upper h]
  simp

/-! ## Lemmas: trimmed length through non-space character counts -/

theorem countP_dropWhile_sp (x : Str) :
    (x.dropWhile isSp).countP (fun c => !isSp c) = x.countP (fun c => !isSp c) := by
  induction x with
  | nil => rfl
  | cons c t ih =>
    by_cases h : isSp c
    · rw [List.dropWhile_cons, if_pos h, ih, List.countP_cons]
      simp [h]
    · rw [List.dropWhile_cons, if_neg h]

theorem countP_trimR (x : Str) :
    (trimR x).countP (fun c => !isSp c) = x.countP (fun c => !isSp c) := by
  rw [trimR]
  calc ((x.reverse.dropWhile isSp).reverse).countP (fun c => !isSp c)
      = (x.reverse.dropWhile isSp).countP (fun c => !isSp c) :=
        (List.reverse_perm _).countP_eq _
    _ = x.reverse.countP (fun c => !isSp c) := countP_dropWhile_sp _
    _ = x.countP (fun c => !isSp c) := (List.reverse_perm _).countP_eq _

theorem countP_jsTrim (x : Str) :
    (jsTrim x).countP (fun c => !isSp c) = x.countP (fun c => !isSp c) := by
  rw [jsTrim, countP_trimR, trimL, countP_dropWhile_sp]

/-- A string beginning with two non-space characters keeps length ≥ 2 after
trimming. -/
theorem jsTrim_min2 {x : Str} {c d : Char} {t : Str} (hx : x = c :: d :: t)
    (hc : isSp c = false) (hd : isSp d = false) : 2 ≤ (jsTrim x).length := by
  have h1 : 2 ≤ x.countP (fun c => !isSp c) := by
    subst hx
    rw [List.countP_cons, List.countP_cons]
    simp [hc, hd]
  calc 2 ≤ x.countP (fun c => !isSp c) := h1
    _ = (jsTrim x).countP (fun c => !isSp c) := (countP_jsTrim x).symm
    _ ≤ (jsTrim x).length := List.countP_le_length _

/-! ## Lemmas: maximal runs -/

theorem runsAux_mem_pred (p : Char → Bool) :
    ∀ (l : Str) (cur : Str), (∀ c ∈ cur, p c = true) →
      ∀ r ∈ runsAux p cur l, ∀ c ∈ r, p c = true := by
  intro l
  induction l with
  | nil =>
    intro cur hcur r hr c hc
    rw [runsAux] at hr
    by_cases h : cur = []
    · rw [if_pos h] at hr
      cases hr
    · rw [if_neg h] at hr
      rcases List.mem_singleton.mp hr with rfl
      exact hcur c (List.mem_reverse.mp hc)
  | cons a t ih =>
    intro cur hcur r hr c hc
    rw [runsAux] at hr
    by_cases hp : p a = true
    · rw [if_pos hp] at hr
      refine ih (a :: cur) ?_ r hr c hc
      intro x hx
      rcases List.mem_cons.mp hx with rfl | hx
      · exact hp
      · exact hcur x hx
    · rw [if_neg hp] at hr
      by_cases hcur0 : cur = []
      · rw [if_pos hcur0] at hr
        exact ih [] (by simp) r hr c hc
      · rw [if_neg hcur0] at hr
        rcases List.mem_cons.mp hr with rfl | hr
        · exact hcur c (List.mem_reverse.mp hc)
        · exact ih [] (by simp) r hr c hc

theorem koMatches_facts (text : Str) :
    ∀ k ∈ koMatches text, (∀ c ∈ k, isHangulC c = true) ∧ 2 ≤ k.length := by
  intro k hk
  rw [koMatches] at hk
  have h1 := List.mem_filter.mp hk
  rw [runsOf] at h1
  exact ⟨runsAux_mem_pred isHangulC text [] (by simp) k h1.1, by simpa using h1.2⟩

theorem enMatches_facts (text : Str) :
    ∀ k ∈ enMatches text, (∀ c ∈ k, isAlphaC c = true) ∧ 2 ≤ k.length ∧
      ∃ c t, k = c :: t ∧ isUpperC c = true := by
  intro k hk
  have h1 := List.mem_filter.mp hk
  have h2 : enKeep k = true := h1.2
  rw [enKeep.eq_def] at h2
  cases k with
  | nil => simp at h2
  | cons c t =>
    simp only [Bool.and_eq_true, List.all_eq_true] at h2
    obtain ⟨⟨hall, hhead⟩, hlen⟩ := h2
    refine ⟨hall, ?_, c, t, rfl, hhead⟩
    rcases Bool.or_eq_true _ _ |>.mp hlen with h | h
    · have h3 : 3 ≤ (c :: t).length := by simpa using h
      omega
    · have h3 : (c :: t).length = 2 := by
        have h4 := Bool.and_eq_true _ _ |>.mp h
        simpa using h4.1
      omega

/-! ## C3: stop words and the tag list -/

/-- **C3 (counterexample).** The proper-noun extractor does not consult the
stop-word sets, so the English stop word `the` is emitted as a tag: the input
text `"the"` (empty title) yields exactly the tag list `["the"]`, although
`the` is in the English stop-word set. -/
theorem stopword_emitted_counterexample :
    extractKeywords 20 (str "the") (str "") = [str "the"] ∧ str "the" ∈ stopwordsEn := by
  constructor
  · decide
  · decide

/-- **C3 (amended).** Only the general-keyword extractor filters stop words:
every keyword it returns is neither a Korean stop word (exact match) nor,
case-insensitively, an English stop word.  (The proper-noun extractor performs
no such filtering, so `extractKeywords` itself can emit stop words.) -/
theorem generalKeywords_stopword_free (text : Str) :
    ∀ k ∈ extractGeneralKeywords text,
      k ∉ stopwordsKo ∧ lowerStr k ∉ stopwordsEn := by
  have hKoHeads : ∀ w ∈ stopwordsKo, w ≠ [] ∧ isHangulC (w.headD ' ') = true := by decide
  have hEnHeads : ∀ w ∈ stopwordsEn, w ≠ [] ∧ isLowerC (w.headD ' ') = true := by decide
  intro k hk
  rw [extractGeneralKeywords] at hk
  rcases List.mem_append.mp hk with h | h
  · have hf := List.mem_filter.mp h
    have hko := koMatches_facts text k hf.1
    obtain ⟨c, t, rfl⟩ : ∃ c t, k = c :: t := by
      cases k with
      | nil => exact absurd hko.2 (by simp)
      | cons c t => exact ⟨c, t, rfl⟩
    have hc : isHangulC c = true := hko.1 c (List.mem_cons_self c t)
    constructor
    · intro hmem
      have hcontains : (stopwordsKo.contains (c :: t)) = false := by
        simpa using hf.2
      have htrue : stopwordsKo.contains (c :: t) = true := List.elem_iff.mpr hmem
      rw [htrue] at hcontains
      cases hcontains
    · intro hmem
      have hhead := hEnHeads _ hmem
      rw [lowerStr, List.map_cons, hangul_toLowerC hc] at hhead
      have hlow : isLowerC c = true := by simpa using hhead.2
      exact absurd hlow (by rw [hangul_not_lower hc]; simp)
  · have hf := List.mem_filter.mp h
    have hen := enMatches_facts text k hf.1
    constructor
    · intro hmem
      have hhead := hKoHeads _ hmem
      obtain ⟨c, t, rfl, hup⟩ := hen.2.2
      have hhang : isHangulC c = true := by simpa using hhead.2
      have halpha : isAlphaC c = true := hen.1 c (List.mem_cons_self c t)
      exact absurd hhang (by rw [alpha_not_hangul halpha]; simp)
    · intro hmem
      have hcontains : (stopwordsEn.contains (lowerStr k)) = false := by
        simpa using hf.2
      have htrue : stopwordsEn.contains (lowerStr k) = true := List.elem_iff.mpr hmem
      rw [htrue] at hcontains
      cases hcontains

/-- Witness for the amended C3: the keyword `테스트` extracted from
`"테스트 the"`. -/
theorem generalKeywords_stopword_free_witness :
    str "테스트" ∈ extractGeneralKeywords (str "테스트 the") ∧
      str "테스트" ∉ stopwordsKo ∧ lowerStr (str "테스트") ∉ stopwordsEn :=
  ⟨by decide,
    (generalKeywords_stopword_free (str "테스트 the") (str "테스트") (by decide)).1,
    (generalKeywords_stopword_free (str "테스트 the") (str "테스트") (by decide)).2⟩

/-! ## C7: title weighting and ranking -/

/-- **C7 (counterexample).** The universal ranking claim fails: with title
`"Acme"` (the term `Acme` appears once in the title and not in the body) and
body `"Beta Corp"` (the term `Beta Corp` appears once, only in the body), the
body-only term outranks the title term — the company and capitalized-words
patterns both match `Beta Corp`, and with the ×2 proper-noun weight it gets
weighted count 4 against 3 for the title term `Acme`. -/
theorem title_ranking_counterexample :
    extractKeywords 20 (str "Beta Corp") (str "Acme") =
        [str "Beta Corp", str "Acme", str "Beta", str "Corp"] ∧
      (extractKeywords 20 (str "Beta Corp") (str "Acme")).indexOf (str "Beta Corp") <
        (extractKeywords 20 (str "Beta Corp") (str "Acme")).indexOf (str "Acme") := by
  constructor
  · decide
  · decide

/-- **C7 (amended).** In the spec's own example the ranking holds: with title
`"Acme Corp announces Acme deal"` and body
`"Acme. Widget. Acme. Widget. Widget."` (`Acme` twice in the title, twice in
the body; `Widget` three times, only in the body), `Acme` is ranked above
`Widget` (weighted counts 12 versus 9). -/
theorem title_ranking_example :
    extractKeywords 20 (str "Acme. Widget. Acme. Widget. Widget.")
        (str "Acme Corp announces Acme deal") = [str "Acme", str "Widget", str "Corp"] ∧
      (extractKeywords 20 (str "Acme. Widget. Acme. Widget. Widget.")
          (str "Acme Corp announces Acme deal")).indexOf (str "Acme") <
        (extractKeywords 20 (str "Acme. Widget. Acme. Widget. Widget.")
            (str "Acme Corp announces Acme deal")).indexOf (str "Widget") := by
  constructor
  · decide
  · decide

/-! ## Lemmas: every number-pattern match has length ≥ 2 -/

theorem scanWith_min (tryAt : Str → Option (Str × Str))
    (hmin : ∀ {l m rest}, tryAt l = some (m, rest) → 2 ≤ m.length) :
    ∀ fuel l, ∀ m ∈ scanWith tryAt fuel l, 2 ≤ m.length := by
  intro fuel
  induction fuel with
  | zero => intro l m hm; cases hm
  | succ fuel ih =>
    intro l m hm
    cases l with
    | nil =>
      have hm' : m ∈ (tryAt []).elim ([] : List Str)
          (fun p => p.1 :: scanWith tryAt fuel p.2) := hm
      cases htry : tryAt [] with
      | none =>
        rw [htry] at hm'
        simp only [Option.elim] at hm'
        cases hm'
      | some p =>
        rw [htry] at hm'
        simp only [Option.elim] at hm'
        rcases List.mem_cons.mp hm' with rfl | hm'
        · exact hmin htry
        · exact ih p.2 m hm'
    | cons c t =>
      have hm' : m ∈ (tryAt (c :: t)).elim (scanWith tryAt fuel t)
          (fun p => p.1 :: scanWith tryAt fuel p.2) := hm
      cases htry : tryAt (c :: t) with
      | none =>
        rw [htry] at hm'
        simp only [Option.elim] at hm'
        exact ih t m hm'
      | some p =>
        rw [htry] at hm'
        simp only [Option.elim] at hm'
        rcases List.mem_cons.mp hm' with rfl | hm'
        · exact hmin htry
        · exact ih p.2 m hm'

theorem moneyTryAt_min : ∀ {l m rest}, moneyTryAt l = some (m, rest) → 2 ≤ m.length := by
  intro l m rest h
  simp only [moneyTryAt] at h
  split at h
  · cases h
  · rename_i hds
    have hlen : 1 ≤ (l.takeWhile isDigitC).length := List.length_pos.mpr hds
    repeat' split at h
    all_goals cases h
    all_goals simp only [List.length_append, List.length_cons, List.length_nil]
    all_goals omega

theorem digits12_min : ∀ {l : Str} {p : Str × Str}, p ∈ digits12 l → 1 ≤ p.1.length := by
  intro l p hp
  match l with
  | [] => cases hp
  | [a] =>
    rw [digits12] at hp
    by_cases h : isDigitC a = true
    · rw [if_pos h] at hp
      rcases List.mem_singleton.mp hp with rfl
      simp
    · rw [if_neg h] at hp
      cases hp
  | a :: b :: rest =>
    rw [digits12] at hp
    by_cases h2 : (isDigitC a && isDigitC b) = true
    · rw [if_pos h2] at hp
      rcases List.mem_cons.mp hp with rfl | hp
      · simp
      · rcases List.mem_singleton.mp hp with rfl
        simp
    · rw [if_neg h2] at hp
      by_cases h1 : isDigitC a = true
      · rw [if_pos h1] at hp
        rcases List.mem_singleton.mp hp with rfl
        simp
      · rw [if_neg h1] at hp
        cases hp

theorem dayTryAt_min : ∀ {l m rest}, dayTryAt l = some (m, rest) → 2 ≤ m.length := by
  intro l m rest h
  rw [dayTryAt] at h
  obtain ⟨p, hp, hf⟩ := List.exists_of_findSome?_eq_some h
  have hlen := digits12_min hp
  split at hf
  · split at hf
    · cases hf
      simp only [List.length_append, List.length_cons, List.length_nil]
      omega
    · cases hf
  · cases hf

theorem monthDayTryAt_min : ∀ {l m rest}, monthDayTryAt l = some (m, rest) →
    2 ≤ m.length := by
  intro l m rest h
  rw [monthDayTryAt] at h
  obtain ⟨p, hp, hf⟩ := List.exists_of_findSome?_eq_some h
  have hlen := digits12_min hp
  repeat' split at hf
  all_goals cases hf
  all_goals simp only [List.length_append, List.length_cons, List.length_nil]
  all_goals omega

theorem dateTryAt_min : ∀ {l m rest}, dateTryAt l = some (m, rest) → 2 ≤ m.length := by
  intro l m rest h
  match l with
  | [] => exact monthDayTryAt_min h
  | [a] => exact monthDayTryAt_min h
  | [a, b] => exact monthDayTryAt_min h
  | [a, b, c] => exact monthDayTryAt_min h
  | [a, b, c, d] => exact monthDayTryAt_min h
  | a :: b :: c :: d :: e :: rest' =>
    rw [dateTryAt] at h
    by_cases hall : (isDigitC a && isDigitC b && isDigitC c && isDigitC d &&
        decide (e = '년')) = true
    · rw [if_pos hall] at h
      cases h
      simp
    · rw [if_neg hall] at h
      exact monthDayTryAt_min h

theorem largeNumTryAt_min : ∀ {l m rest}, largeNumTryAt l = some (m, rest) →
    2 ≤ m.length := by
  intro l m rest h
  simp only [largeNumTryAt] at h
  split at h
  · cases h
  · rename_i hds
    have hlen : 1 ≤ (l.takeWhile isDigitC).length := List.length_pos.mpr hds
    repeat' split at h
    all_goals cases h
    all_goals simp only [List.length_append, List.length_cons, List.length_nil]
    all_goals omega

theorem extractNumbers_min (text : Str) : ∀ k ∈ extractNumbers text, 2 ≤ k.length := by
  intro k hk
  rw [extractNumbers] at hk
  rcases List.mem_append.mp hk with h | h
  · rcases List.mem_append.mp h with h' | h'
    · exact scanWith_min moneyTryAt (fun hx => moneyTryAt_min hx) _ _ k h'
    · exact scanWith_min dateTryAt (fun hx => dateTryAt_min hx) _ _ k h'
  · exact scanWith_min largeNumTryAt (fun hx => largeNumTryAt_min hx) _ _ k h

/-! ## Lemmas: proper-noun matches -/

theorem capWord_shape : ∀ {l w rest}, capWord l = some (w, rest) →
    ∃ c d t, w = c :: d :: t ∧ isUpperC c = true ∧ isLowerC d = true := by
  intro l w rest h
  cases l with
  | nil => cases h
  | cons c r =>
    simp only [capWord] at h
    by_cases hu : isUpperC c = true
    · rw [if_pos hu] at h
      by_cases hlow : r.takeWhile isLowerC = []
      · rw [if_pos hlow] at h
        cases h
      · rw [if_neg hlow] at h
        cases h
        cases hl : r.takeWhile isLowerC with
        | nil => exact absurd hl hlow
        | cons d t2 =>
          refine ⟨c, d, t2, rfl, hu, ?_⟩
          have hd : d ∈ r.takeWhile isLowerC := by
            rw [hl]
            exact List.mem_cons_self d t2
          exact List.mem_takeWhile_imp hd
    · rw [if_neg hu] at h
      cases h

theorem capScan_shape : ∀ fuel prevW l, ∀ m ∈ capScan fuel prevW l,
    ∃ c d t, m = c :: d :: t ∧ isUpperC c = true ∧ isLowerC d = true := by
  intro fuel
  induction fuel with
  | zero => intro _ _ m hm; cases hm
  | succ fuel ih =>
    intro prevW l m hm
    cases l with
    | nil => cases hm
    | cons c t =>
      have hm' : m ∈ (if prevW then none else capWord (c :: t)).elim
          (capScan fuel (isWordC c) t)
          (fun q =>
            let segs := capChain q.2.length q.2
            if segs = [] then capScan fuel (isWordC c) t
            else if bdryOK (segs.getLastD ([], [])).2 then
              (q.1 ++ (segs.map Prod.fst).flatten) ::
                capScan fuel true (segs.getLastD ([], [])).2
            else if 2 ≤ segs.length then
              (q.1 ++ ((segs.dropLast).map Prod.fst).flatten) ::
                capScan fuel true ((segs.dropLast).getLastD ([], [])).2
            else capScan fuel (isWordC c) t) := hm
      cases hcw : (if prevW then none else capWord (c :: t)) with
      | none =>
        rw [hcw] at hm'
        simp only [Option.elim] at hm'
        exact ih _ t m hm'
      | some q =>
        rw [hcw] at hm'
        simp only [Option.elim] at hm'
        have hcap : capWord (c :: t) = some q := by
          by_cases hp : prevW
          · rw [if_pos hp] at hcw
            cases hcw
          · rwa [if_neg hp] at hcw
        obtain ⟨c0, d0, t0, hw, hu, hl⟩ :=
          capWord_shape (show capWord (c :: t) = some (q.1, q.2) from hcap)
        by_cases hseg : capChain q.2.length q.2 = []
        · rw [if_pos hseg] at hm'
          exact ih _ t m hm'
        · rw [if_neg hseg] at hm'
          by_cases hb : bdryOK ((capChain q.2.length q.2).getLastD ([], [])).2 = true
          · rw [if_pos hb] at hm'
            rcases List.mem_cons.mp hm' with rfl | hm'
            · exact ⟨c0, d0, t0 ++ ((capChain q.2.length q.2).map Prod.fst).flatten,
                by rw [hw]; simp, hu, hl⟩
            · exact ih _ _ m hm'
          · rw [if_neg hb] at hm'
            by_cases h2 : 2 ≤ (capChain q.2.length q.2).length
            · rw [if_pos h2] at hm'
              rcases List.mem_cons.mp hm' with rfl | hm'
              · exact ⟨c0, d0,
                  t0 ++ (((capChain q.2.length q.2).dropLast).map Prod.fst).flatten,
                  by rw [hw]; simp, hu, hl⟩
              · exact ih _ _ m hm'
            · rw [if_neg h2] at hm'
              exact ih _ t m hm'

theorem acronymMatches_facts (text : Str) :
    ∀ k ∈ acronymMatches text, 2 ≤ k.length ∧ ∃ c d t, k = c :: d :: t ∧
      isUpperC c = true ∧ isUpperC d = true := by
  intro k hk
  have h1 := List.mem_filter.mp hk
  have h2 : acronymKeep k = true := h1.2
  rw [acronymKeep] at h2
  simp only [Bool.and_eq_true, List.all_eq_true] at h2
  obtain ⟨hall, hlen⟩ := h2
  have hlen' : 2 ≤ k.length := by simpa using hlen
  cases k with
  | nil => simp at hlen'
  | cons c t =>
    cases t with
    | nil => simp at hlen'
    | cons d t2 =>
      exact ⟨hlen', c, d, t2, rfl, hall c (by simp), hall d (by simp)⟩

theorem extractProperNouns_min (text : Str) :
    ∀ k ∈ extractProperNouns text, 2 ≤ k.length := by
  intro k hk
  rw [extractProperNouns] at hk
  have h1 := List.mem_filter.mp hk
  obtain ⟨x, hx, rfl⟩ := List.mem_map.mp h1.1
  rcases List.mem_append.mp hx with hx2 | hacr
  · rcases List.mem_append.mp hx2 with hcomp | hcaps
    · have hcfacts := List.mem_filter.mp hcomp
      have hlen : 2 ≤ x.length := by simpa using hcfacts.2
      obtain ⟨cap, hcap, rfl⟩ := List.mem_map.mp hcfacts.1
      rw [jsTrim_idem]
      exact hlen
    · obtain ⟨c, d, t, rfl, hu, hl⟩ := capScan_shape _ _ _ x hcaps
      exact jsTrim_min2 rfl (sp_false_of_upper hu) (sp_false_of_lower hl)
  · obtain ⟨hlen, c, d, t, rfl, hu1, hu2⟩ := acronymMatches_facts text x hacr
    exact jsTrim_min2 rfl (sp_false_of_upper hu1) (sp_false_of_upper hu2)

/-! ## C10: every tag has length at least 2 -/

theorem extractGeneralKeywords_min (text : Str) :
    ∀ k ∈ extractGeneralKeywords text, 2 ≤ k.length := by
  intro k hk
  rw [extractGeneralKeywords] at hk
  rcases List.mem_append.mp hk with h | h
  · exact (koMatches_facts text k (List.mem_filter.mp h).1).2
  · exact (enMatches_facts text k (List.mem_filter.mp h).1).2.1

theorem keywordCandidates_min (text title : Str) :
    ∀ k ∈ keywordCandidates text title, 2 ≤ k.length := by
  intro k hk
  rw [keywordCandidates] at hk
  rcases List.mem_append.mp hk with h | hnum
  · rcases List.mem_append.mp h with h2 | hgen
    · rcases List.mem_append.mp h2 with htit | hpn
      · by_cases ht : title = []
        · rw [if_pos ht] at htit
          cases htit
        · rw [if_neg ht] at htit
          rcases List.mem_append.mp htit with h3 | h3
          · rcases List.mem_append.mp h3 with h4 | h4 <;>
              exact extractGeneralKeywords_min title k h4
          · exact extractGeneralKeywords_min title k h3
      · rcases List.mem_append.mp hpn with h3 | h3 <;>
          exact extractProperNouns_min text k h3
    · exact extractGeneralKeywords_min text k hgen
  · exact extractNumbers_min text k hnum

theorem extract_mem_candidates (maxTags : Nat) (text title : Str) :
    ∀ k ∈ extractKeywords maxTags text title, k ∈ keywordCandidates text title := by
  intro k hk
  have hkeys : List.Perm ((sortEntries (countFrequency (keywordCandidates text title))).map
      Prod.fst) (insertionOrder (keywordCandidates text title)) :=
    countFrequency_keys _ ▸ (sortEntries_perm _).map Prod.fst
  exact insertionOrder_subset _ k (hkeys.mem_iff.mp (List.mem_of_mem_take hk))

/-- **C10.** Every string in the sequence returned by `extractKeywords` is
non-empty and has length at least 2: every sub-extractor's pattern requires at
least two Hangul characters, two letters, or a digit plus a unit character,
and proper-noun candidates shorter than 2 characters are discarded. -/
theorem extractKeywords_min_length (maxTags : Nat) (text title : Str) :
    ∀ k ∈ extractKeywords maxTags text title, k ≠ [] ∧ 2 ≤ k.length := by
  intro k hk
  have h2 := keywordCandidates_min text title k (extract_mem_candidates maxTags text title k hk)
  refine ⟨?_, h2⟩
  intro e
  subst e
  simp at h2

/-- Witness for C10 at the concrete input `"하다"`. -/
theorem extractKeywords_min_length_witness :
    str "하다" ∈ extractKeywords 20 (str "하다") (str "") ∧
      str "하다" ≠ [] ∧ 2 ≤ (str "하다").length :=
  ⟨by decide, extractKeywords_min_length 20 (str "하다") (str "") (str "하다") (by decide)⟩

end KnowledgeExpander
